import Mathlib

/-!
Shallow embedding of the read-pair classification core of the run_megahit
utility (src/run_megahit/src/lib.rs), together with proofs about it.

Paths are modelled as Lean strings (the Rust code receives paths as UTF-8
strings and converts them with Path::new / to_str, which is the identity on
valid UTF-8).  The two regular expressions that the code builds are small
and fixed in shape, so they are embedded as concrete matching functions that
implement exactly the leftmost-first backtracking semantics of the regex
crate on those two patterns.  HashMap values are modelled as a record with
one optional slot per direction; the HashMap from sample names to read
pairs is modelled as an association list with unique keys, inserting new
keys at the end.  The iteration order of a Rust HashMap is unspecified, so
where the code iterates over a map (the eviction pass of classify) the
model additionally exposes a variant that takes the iteration order as a
parameter, and the determinism theorem quantifies over all admissible
orders.

One caveat: classify escapes only the dots of each detected extension
before splicing it into the classification pattern, so an extension that
contains any other regex metacharacter makes the real pattern either fail
to compile (the unwrap on Regex::new at line 318 then panics, e.g. for the
input x.f(q whose extension holds an unmatched parenthesis) or match
non-literally.  The matcher below compares extensions literally, which is
the behavior of the compiled pattern exactly when every detected extension
is made of dots and non-metacharacters; the totality statement (claim C2)
carries this as an explicit hypothesis (extLiteral), and the per-claim
statements conditioned on a returned result are unaffected.
-/

/-- Mate direction of a read file, from enum ReadDirection in lib.rs. -/
inductive ReadDirection where
  | Forward : ReadDirection
  | Reverse : ReadDirection
deriving DecidableEq, Repr

/-- A ReadPair is HashMap ReadDirection String in lib.rs; since the key type
has exactly two values this is one optional slot per direction. -/
structure ReadPair where
  forward : Option String
  reverse : Option String
deriving DecidableEq, Repr

/-- pair.insert(direction, path) on a ReadPair HashMap. -/
def ReadPair.insert (pr : ReadPair) (d : ReadDirection) (v : String) : ReadPair :=
  match d with
  | ReadDirection.Forward => { pr with forward := some v }
  | ReadDirection.Reverse => { pr with reverse := some v }

/-- pair.get(direction) on a ReadPair HashMap. -/
def ReadPair.get (pr : ReadPair) (d : ReadDirection) : Option String :=
  match d with
  | ReadDirection.Forward => pr.forward
  | ReadDirection.Reverse => pr.reverse

/-- pair.values() of a ReadPair HashMap, in the canonical order
Forward then Reverse (the Rust iteration order is unspecified). -/
def ReadPair.values (pr : ReadPair) : List String :=
  pr.forward.toList ++ pr.reverse.toList

/-- Both directions present: the completeness test of the eviction pass. -/
def isComplete (pr : ReadPair) : Bool :=
  pr.forward.isSome && pr.reverse.isSome

/-- HashMap from sample name to ReadPair (type ReadPairLookup in lib.rs),
modelled as an association list with unique keys. -/
abbrev ReadPairLookup : Type := List (String × ReadPair)

/-- pairs.get(sample_name). -/
def lookupPair (m : ReadPairLookup) (k : String) : Option ReadPair :=
  match m with
  | [] => none
  | (k', pr) :: rest => if k' = k then some pr else lookupPair rest k

/-- The insertion step of classify: if the key is absent, insert a fresh
pair holding only the given direction; otherwise update the existing pair
(lines 335-341 of lib.rs). -/
def insertPair (m : ReadPairLookup) (k : String) (d : ReadDirection) (v : String) :
    ReadPairLookup :=
  match m with
  | [] => [(k, (ReadPair.mk none none).insert d v)]
  | (k', pr) :: rest =>
      if k' = k then (k', pr.insert d v) :: rest
      else (k', pr) :: insertPair rest k d v

/-- pairs.remove(key). -/
def removeKey (m : ReadPairLookup) (k : String) : ReadPairLookup :=
  m.filter (fun kv => kv.1 ≠ k)

/-- The keys of the map. -/
def keysOf (m : ReadPairLookup) : List String :=
  m.map Prod.fst

/-- All file paths stored in the map, each slot once. -/
def allValues (m : ReadPairLookup) : List String :=
  m.flatMap (fun kv => kv.2.values)

/-- The filled (sample, direction) slots of one map entry. -/
def entrySlots (k : String) (pr : ReadPair) : List (String × ReadDirection) :=
  (if pr.forward.isSome then [(k, ReadDirection.Forward)] else []) ++
    (if pr.reverse.isSome then [(k, ReadDirection.Reverse)] else [])

/-- The filled (sample, direction) slots of the map. -/
def filledSlots (m : ReadPairLookup) : List (String × ReadDirection) :=
  m.flatMap (fun kv => entrySlots kv.1 kv.2)

/-- The path stored in one (sample, direction) slot. -/
def slotOf (m : ReadPairLookup) (k : String) (d : ReadDirection) : Option String :=
  (lookupPair m k).bind (fun pr => pr.get d)

/-- The values held by one key, empty if the key is absent. -/
def valuesOfKey (m : ReadPairLookup) (k : String) : List String :=
  match lookupPair m k with
  | some pr => pr.values
  | none => []

/-- Type alias from lib.rs: the unpaired reads. -/
abbrev SingleReads : Type := List String

/-! ### Paths: Rust Path::file_name on Unix

A path is split on the slash; empty components and lone-dot components are
skipped (they are not Normal components); the final component is the file
name unless it is the parent-directory marker. -/

/-- Split a character list on the slash separator. -/
def splitSlash : List Char → List (List Char)
  | [] => [[]]
  | c :: rest =>
      if c = '/' then [] :: splitSlash rest
      else
        match splitSlash rest with
        | [] => [[c]]
        | g :: gs => (c :: g) :: gs

/-- The Normal-or-ParentDir components of a path: empty runs and lone-dot
components are dropped, as in Rust Path::components on Unix. -/
def pathComponents (cs : List Char) : List (List Char) :=
  (splitSlash cs).filter (fun comp => !comp.isEmpty && comp ≠ ['.'])

/-- Path::file_name: the last component if it is a Normal component,
none if the path ends in the parent-dir marker or has no component. -/
def fileNameCore (cs : List Char) : Option (List Char) :=
  match (pathComponents cs).getLast? with
  | none => none
  | some comp => if comp = ['.', '.'] then none else some comp

/-- String-level Path::file_name. -/
def file_name (p : String) : Option String :=
  (fileNameCore p.data).map (fun l => String.mk l)

/-! ### get_extension (lines 376-385 of lib.rs)

The regex is backslash-dot, capture of one-or-more non-dot characters
optionally followed by the literal dot-g-z, anchored at the end, applied to
the base name.  At a given starting dot the group `[^.]+` is forced to be
the maximal dot-free run, and the whole remainder must then be empty or
exactly the literal dot-g-z; the leftmost starting dot that admits this
wins, and the capture is then the entire remainder after that dot. -/

/-- Does the text after a candidate starting dot match the capture group
of the extension regex through to the end of the string? -/
def extTail (t : List Char) : Bool :=
  let p := t.takeWhile (fun c => c ≠ '.')
  let r := t.drop p.length
  !p.isEmpty && (r.isEmpty || r = ['.', 'g', 'z'])

/-- Scan for the leftmost dot whose tail matches the extension regex; the
capture is the remainder after that dot. -/
def extCapture : List Char → Option (List Char)
  | [] => none
  | c :: rest =>
      if c = '.' && extTail rest then some rest
      else extCapture rest

/-- get_extension: extension of the base name, plus optional .gz. -/
def get_extension (p : String) : Option String :=
  match fileNameCore p.data with
  | none => none
  | some bn => (extCapture bn).map (fun l => String.mk l)

/-! ### The extension list of classify (lines 307-315 of lib.rs)

Rust Vec::dedup removes only adjacent duplicates; this is List.destutter
with the not-equal relation.  The subsequent escaping pass makes the dots
of each extension literal inside the classification regex; the matcher
below therefore compares extensions literally and the escaping step needs
no separate model (the extensions produced by get_extension consist of the
characters of file names; the claims concern names whose extensions contain
no further regex metacharacters). -/

/-- Rust Vec::dedup: collapse adjacent equal elements, keeping the first of
each run. -/
def vecDedup (l : List String) : List String :=
  l.destutter (fun a b => a ≠ b)

/-- The extension list classify computes from the full input list. -/
def classifyExts (paths : List String) : List String :=
  vecDedup (paths.filterMap get_extension)

/-- Characters the regex crate treats specially outside a character class.
The escape pass of classify escapes only the dot of a detected extension
before splicing it into the classification pattern. -/
def regexMeta (c : Char) : Bool :=
  c = '\\' || c = '.' || c = '+' || c = '*' || c = '?' || c = '(' || c = ')' ||
    c = '|' || c = '[' || c = ']' || c = '{' || c = '}' || c = '^' || c = '$'

/-- Does a detected extension splice into the classification pattern as a
literal: every character is a dot (escaped by classify) or not a regex
metacharacter?  When an extension violates this, the Rust pattern either
fails to compile, in which case the unwrap on Regex::new at line 318 panics
(e.g. the extension f(q of input x.f(q leaves the non-capturing group of
the alternation unclosed), or matches non-literally; the matcher below
compares extensions literally and so covers exactly the literal case. -/
def extLiteral (e : String) : Bool :=
  e.data.all (fun c => c = '.' || !regexMeta c)

/-! ### The classification regex (line 317 of lib.rs)

Pattern: greedy dot-plus capture, a mandatory underscore-or-hyphen class, an
optional R or r, an optional capture of the digit 1 or 2, a literal dot, an
alternation of the detected extensions, end anchor.  The matcher implements
leftmost-first semantics: smallest viable start, and at that start the
greedy group one takes the largest viable extent; the optional pieces
prefer to match.  The dot metacharacter does not match a newline. -/

/-- The underscore-or-hyphen separator class. -/
def isSep (c : Char) : Bool := c = '_' || c = '-'

/-- Literal dot followed by one of the detected extensions, then the end of
the string.  An empty alternation group matches the empty string.
Extensions are compared literally; this agrees with the compiled pattern
exactly when every detected extension satisfies extLiteral (its dots are
escaped by the code, its other characters are regex-literal). -/
def extAltMatch (exts : List (List Char)) (r : List Char) : Bool :=
  match r with
  | '.' :: rest =>
      if exts.isEmpty then rest.isEmpty
      else exts.any (fun e => e = rest)
  | _ => false

/-- Match the part after the separator: optional R or r, optional captured
digit, dot, extension alternation, end.  Returns the captured digit option
when the tail matches (none when the digit group did not participate). -/
def tailCapture (exts : List (List Char)) (r : List Char) : Option (Option Char) :=
  match r with
  | [] => none
  | c :: r1 =>
      if c = 'R' || c = 'r' then
        match r1 with
        | [] => none
        | d :: r2 =>
            if (d = '1' || d = '2') && extAltMatch exts r2 then some (some d)
            else if extAltMatch exts r1 then some none
            else none
      else if (c = '1' || c = '2') && extAltMatch exts r1 then some (some c)
      else if extAltMatch exts r then some none
      else none

/-- Is q a viable separator position for a match whose group one starts at
p: the group is nonempty, newline-free, the character at q is a separator,
and the tail after q matches. -/
def sepOK (exts : List (List Char)) (cs : List Char) (p q : Nat) : Bool :=
  decide (p < q) && decide (q < cs.length) && isSep (cs.getD q ' ') &&
    ((cs.drop p).take (q - p)).all (fun c => c ≠ '\n') &&
    (tailCapture exts (cs.drop (q + 1))).isSome

/-- Largest viable separator position for a given start (group one is
greedy). -/
def bestQ (exts : List (List Char)) (cs : List Char) (p : Nat) : Option Nat :=
  (List.range cs.length).reverse.find? (fun q => sepOK exts cs p q)

/-- Smallest viable start position (leftmost match). -/
def bestP (exts : List (List Char)) (cs : List Char) : Option Nat :=
  (List.range cs.length).find? (fun p => (bestQ exts cs p).isSome)

/-- The captures of the classification regex on a base name: the sample
name (group one) and the optional mate digit (group two). -/
def captures (exts : List (List Char)) (cs : List Char) :
    Option (List Char × Option Char) :=
  match bestP exts cs with
  | none => none
  | some p =>
      match bestQ exts cs p with
      | none => none
      | some q =>
          match tailCapture exts (cs.drop (q + 1)) with
          | none => none
          | some dOpt => some ((cs.drop p).take (q - p), dOpt)

/-- The direction decoding of classify: digit 1 is Forward, anything else
Reverse (lines 329-333 of lib.rs). -/
def directionOf (d : Char) : ReadDirection :=
  if d = '1' then ReadDirection.Forward else ReadDirection.Reverse

/-- The (sample, direction) slot a path is assigned to, when its base name
matches the pattern with the digit group filled. -/
def slotCaptureOf (exts : List (List Char)) (p : String) :
    Option (String × ReadDirection) :=
  match fileNameCore p.data with
  | none => none
  | some bn =>
      match captures exts bn with
      | some (sample, some d) => some (String.mk sample, directionOf d)
      | _ => none

/-- A path whose base name matches the pattern with the digit group empty:
indexing capture group two then panics in the Rust code. -/
def hasMissingDigit (exts : List (List Char)) (p : String) : Bool :=
  match fileNameCore p.data with
  | none => false
  | some bn =>
      match captures exts bn with
      | some (_, none) => true
      | _ => false

/-- A path that has a base name but does not match the pattern: it is
pushed to the singles immediately. -/
def noMatchB (exts : List (List Char)) (p : String) : Bool :=
  match fileNameCore p.data with
  | none => false
  | some bn => (captures exts bn).isNone

/-! ### classify (lines 303-372 of lib.rs) -/

/-- The per-path loop of classify.  A path with no base name is skipped; an
unmatched base name goes to the singles; a match with a digit inserts into
the pair map; a match without a digit panics (indexing a capture group that
did not participate), modelled as the error case. -/
def foldProcess (exts : List (List Char)) :
    List String → ReadPairLookup → SingleReads →
    Except String (ReadPairLookup × SingleReads)
  | [], m, s => Except.ok (m, s)
  | p :: rest, m, s =>
      match fileNameCore p.data with
      | none => foldProcess exts rest m s
      | some bn =>
          match captures exts bn with
          | none => foldProcess exts rest m (s ++ [p])
          | some (sample, some d) =>
              foldProcess exts rest (insertPair m (String.mk sample) (directionOf d) p) s
          | some (_, none) => Except.error "no group at index 2"

/-- classify before the eviction pass: the pair map and the singles after
the per-path loop. -/
def classifyRaw (paths : List String) :
    Except String (ReadPairLookup × SingleReads) :=
  foldProcess ((classifyExts paths).map String.data) paths [] []

/-- The keys of the incomplete pairs (lines 348-359 of lib.rs), in map
order. -/
def badKeys (m : ReadPairLookup) : List String :=
  (m.filter (fun kv => !isComplete kv.2)).map Prod.fst

/-- One step of the eviction loop: push the values of the key to the
singles and remove the key (lines 362-369 of lib.rs). -/
def evictKey (acc : ReadPairLookup × SingleReads) (k : String) :
    ReadPairLookup × SingleReads :=
  match lookupPair acc.1 k with
  | some pr => (removeKey acc.1 k, acc.2 ++ pr.values)
  | none => (removeKey acc.1 k, acc.2)

/-- classify: the per-path loop followed by the eviction of incomplete
pairs, with the canonical iteration order (map insertion order). -/
def classify (paths : List String) :
    Except String (ReadPairLookup × SingleReads) :=
  match classifyRaw paths with
  | Except.error e => Except.error e
  | Except.ok (m, s) => Except.ok ((badKeys m).foldl evictKey (m, s))

/-- One eviction step with the values supplied by a parameter, used to
model the unspecified HashMap iteration order. -/
def evictKeyWith (valOrd : String → List String)
    (acc : ReadPairLookup × SingleReads) (k : String) :
    ReadPairLookup × SingleReads :=
  (removeKey acc.1 k, acc.2 ++ valOrd k)

/-- classify with the eviction order and per-key value order taken as
parameters: every run of the Rust classify is this function at some
admissible order (badOrd a permutation of the incomplete keys, valOrd k a
permutation of the values of k). -/
def classifyWith (badOrd : List String) (valOrd : String → List String)
    (paths : List String) : Except String (ReadPairLookup × SingleReads) :=
  match classifyRaw paths with
  | Except.error e => Except.error e
  | Except.ok (m, s) => Except.ok (badOrd.foldl (evictKeyWith valOrd) (m, s))

/-- Did classify return a result (as opposed to panicking)? -/
def resultOk (r : Except String (ReadPairLookup × SingleReads)) : Bool :=
  match r with
  | Except.ok _ => true
  | Except.error _ => false

/-! ### Basic lemmas about ReadPair -/

theorem ReadPair.get_insert_same (pr : ReadPair) (d : ReadDirection) (v : String) :
    (pr.insert d v).get d = some v := by
  cases d <;> rfl

theorem ReadPair.get_insert_ne (pr : ReadPair) {d d' : ReadDirection} (v : String)
    (h : d' ≠ d) : (pr.insert d v).get d' = pr.get d' := by
  cases d <;> cases d' <;> first | rfl | exact absurd rfl h

theorem ReadPair.values_insert_of_get_none (pr : ReadPair) {d : ReadDirection}
    (v : String) (h : pr.get d = none) :
    List.Perm (pr.insert d v).values (v :: pr.values) := by
  cases d
  · simp only [ReadPair.get] at h
    simp [ReadPair.values, ReadPair.insert, h]
  · simp only [ReadPair.get] at h
    simp only [ReadPair.values, ReadPair.insert, h]
    simp

theorem ReadPair.mem_values_insert (pr : ReadPair) (d : ReadDirection) (v x : String)
    (h : x ∈ (pr.insert d v).values) : x = v ∨ x ∈ pr.values := by
  cases d <;> simp only [ReadPair.values, ReadPair.insert, List.mem_append] at h ⊢ <;>
    rcases h with h | h <;> simp_all

/-! ### Basic lemmas about the association-list map -/

theorem lookupPair_removeKey (m : ReadPairLookup) {k k' : String} (h : k ≠ k') :
    lookupPair (removeKey m k') k = lookupPair m k := by
  induction m with
  | nil => rfl
  | cons kv rest ih =>
      obtain ⟨k0, pr0⟩ := kv
      by_cases hk : k0 = k'
      · subst hk
        simp [removeKey, List.filter_cons, lookupPair, Ne.symm h]
        simpa [removeKey] using ih
      · by_cases hk0 : k0 = k
        · subst hk0
          simp [removeKey, List.filter_cons, lookupPair, hk]
        · simp [removeKey, List.filter_cons, lookupPair, hk, hk0]
          simpa [removeKey] using ih

theorem lookupPair_insertPair_self (m : ReadPairLookup) (k : String)
    (d : ReadDirection) (v : String) :
    lookupPair (insertPair m k d v) k =
      some (((lookupPair m k).getD (ReadPair.mk none none)).insert d v) := by
  induction m with
  | nil => simp [insertPair, lookupPair]
  | cons kv rest ih =>
      obtain ⟨k0, pr0⟩ := kv
      by_cases hk : k0 = k
      · subst hk
        simp [insertPair, lookupPair]
      · simp [insertPair, lookupPair, hk, ih]

theorem lookupPair_insertPair_ne (m : ReadPairLookup) {k k' : String}
    (d : ReadDirection) (v : String) (h : k' ≠ k) :
    lookupPair (insertPair m k d v) k' = lookupPair m k' := by
  induction m with
  | nil => simp [insertPair, lookupPair, Ne.symm h]
  | cons kv rest ih =>
      obtain ⟨k0, pr0⟩ := kv
      by_cases hk : k0 = k
      · subst hk
        simp [insertPair, lookupPair, Ne.symm h]
      · by_cases hk' : k0 = k'
        · subst hk'
          simp [insertPair, lookupPair, hk, h]
        · simp [insertPair, lookupPair, hk, hk', ih]

theorem slotOf_insertPair_same (m : ReadPairLookup) (k : String)
    (d : ReadDirection) (v : String) :
    slotOf (insertPair m k d v) k d = some v := by
  simp [slotOf, lookupPair_insertPair_self, ReadPair.get_insert_same]

theorem slotOf_insertPair_other (m : ReadPairLookup) {k k' : String}
    {d d' : ReadDirection} (v : String) (h : ¬(k' = k ∧ d' = d)) :
    slotOf (insertPair m k d v) k' d' = slotOf m k' d' := by
  by_cases hk : k' = k
  · subst hk
    have hd : d' ≠ d := fun hd => h ⟨rfl, hd⟩
    simp only [slotOf, lookupPair_insertPair_self]
    rw [Option.some_bind, ReadPair.get_insert_ne _ _ hd]
    cases hl : lookupPair m k' with
    | none => cases d' <;> rfl
    | some pr => simp [hl]
  · simp [slotOf, lookupPair_insertPair_ne _ _ _ hk]

theorem mem_keysOf_iff (m : ReadPairLookup) (k : String) :
    k ∈ keysOf m ↔ (lookupPair m k).isSome := by
  induction m with
  | nil => simp [keysOf, lookupPair]
  | cons kv rest ih =>
      obtain ⟨k0, pr0⟩ := kv
      by_cases hk : k0 = k
      · subst hk
        simp [keysOf, lookupPair]
      · simp [keysOf, lookupPair, hk, Ne.symm hk] at ih ⊢
        exact ih

theorem keysOf_insertPair (m : ReadPairLookup) (k : String)
    (d : ReadDirection) (v : String) :
    keysOf (insertPair m k d v) =
      if (lookupPair m k).isSome then keysOf m else keysOf m ++ [k] := by
  induction m with
  | nil => simp [insertPair, keysOf, lookupPair]
  | cons kv rest ih =>
      obtain ⟨k0, pr0⟩ := kv
      by_cases hk : k0 = k
      · subst hk
        simp [insertPair, keysOf, lookupPair]
      · simp only [insertPair, keysOf, lookupPair, hk, if_false, if_neg hk,
          List.map_cons] at ih ⊢
        rw [ih]
        by_cases hs : (lookupPair rest k).isSome <;> simp [hs]

theorem nodup_keysOf_insertPair (m : ReadPairLookup) (k : String)
    (d : ReadDirection) (v : String) (h : (keysOf m).Nodup) :
    (keysOf (insertPair m k d v)).Nodup := by
  rw [keysOf_insertPair]
  by_cases hs : (lookupPair m k).isSome
  · simpa [hs]
  · have hk : k ∉ keysOf m := by
      rw [mem_keysOf_iff]
      simpa using hs
    simp [hs, List.nodup_append, h, hk]

theorem lookupPair_eq_of_mem (m : ReadPairLookup) (k : String) (pr : ReadPair)
    (hnd : (keysOf m).Nodup) (hmem : (k, pr) ∈ m) : lookupPair m k = some pr := by
  induction m with
  | nil => simp at hmem
  | cons kv rest ih =>
      obtain ⟨k0, pr0⟩ := kv
      simp only [List.mem_cons] at hmem
      simp only [keysOf, List.map_cons, List.nodup_cons] at hnd
      rcases hmem with hmem | hmem
      · injection hmem with h1 h2
        subst h1; subst h2
        simp [lookupPair]
      · have hk : k0 ≠ k := by
          intro hh
          subst hh
          exact hnd.1 (by simpa [keysOf] using List.mem_map_of_mem Prod.fst hmem)
        simp only [lookupPair, hk, if_false, if_neg hk]
        exact ih hnd.2 hmem

theorem lookupPair_mem (m : ReadPairLookup) (k : String) (pr : ReadPair)
    (h : lookupPair m k = some pr) : (k, pr) ∈ m := by
  induction m with
  | nil => simp [lookupPair] at h
  | cons kv rest ih =>
      obtain ⟨k0, pr0⟩ := kv
      by_cases hk : k0 = k
      · subst hk
        simp only [lookupPair] at h
        simp only [if_pos trivial, Option.some.injEq] at h
        simp [h]
      · simp only [lookupPair, if_neg hk] at h
        exact List.mem_cons_of_mem _ (ih h)

theorem insertPair_cons_self (k : String) (pr : ReadPair) (rest : ReadPairLookup)
    (d : ReadDirection) (v : String) :
    insertPair ((k, pr) :: rest) k d v = (k, pr.insert d v) :: rest := by
  simp [insertPair]

theorem insertPair_cons_ne (k0 k : String) (pr : ReadPair) (rest : ReadPairLookup)
    (d : ReadDirection) (v : String) (hk : k0 ≠ k) :
    insertPair ((k0, pr) :: rest) k d v = (k0, pr) :: insertPair rest k d v := by
  simp [insertPair, hk]

theorem allValues_cons (kv : String × ReadPair) (rest : ReadPairLookup) :
    allValues (kv :: rest) = kv.2.values ++ allValues rest := by
  simp [allValues]

theorem filledSlots_cons (kv : String × ReadPair) (rest : ReadPairLookup) :
    filledSlots (kv :: rest) = entrySlots kv.1 kv.2 ++ filledSlots rest := by
  simp [filledSlots]

theorem entrySlots_insert_of_get_none (k : String) (pr : ReadPair)
    {d : ReadDirection} (v : String) (h : pr.get d = none) :
    List.Perm (entrySlots k (pr.insert d v)) ((k, d) :: entrySlots k pr) := by
  cases d
  · have hf : pr.forward = none := h
    simp [entrySlots, ReadPair.insert, hf]
  · have hr : pr.reverse = none := h
    simp only [entrySlots, ReadPair.insert, hr, Option.isSome_some,
      Option.isSome_none, if_true, List.append_nil]
    simp

theorem mem_entrySlots_key (k k' : String) (pr : ReadPair) (d : ReadDirection)
    (h : (k', d) ∈ entrySlots k pr) : k' = k := by
  simp only [entrySlots, List.mem_append] at h
  rcases h with h | h <;> split_ifs at h <;> simp_all

theorem mem_entrySlots_iff (k : String) (pr : ReadPair) (d : ReadDirection) :
    (k, d) ∈ entrySlots k pr ↔ (pr.get d).isSome := by
  cases d <;> simp only [entrySlots, List.mem_append, ReadPair.get] <;>
    split_ifs with h1 h2 <;> simp_all

theorem allValues_insertPair_of_slot_none (m : ReadPairLookup) (k : String)
    (d : ReadDirection) (v : String) (h : slotOf m k d = none) :
    List.Perm (allValues (insertPair m k d v)) (v :: allValues m) := by
  induction m with
  | nil => cases d <;> simp [allValues, insertPair, ReadPair.values, ReadPair.insert]
  | cons kv rest ih =>
      obtain ⟨k0, pr0⟩ := kv
      by_cases hk : k0 = k
      · subst hk
        have hget : pr0.get d = none := by
          simpa [slotOf, lookupPair] using h
        rw [insertPair_cons_self, allValues_cons, allValues_cons]
        exact ((ReadPair.values_insert_of_get_none pr0 v hget).append_right _).trans
          (List.Perm.refl _)
      · have hrest : slotOf rest k d = none := by
          simpa [slotOf, lookupPair, hk] using h
        rw [insertPair_cons_ne _ _ _ _ _ _ hk, allValues_cons, allValues_cons]
        exact ((ih hrest).append_left _).trans List.perm_middle

theorem mem_allValues_insertPair (m : ReadPairLookup) (k : String)
    (d : ReadDirection) (v x : String)
    (h : x ∈ allValues (insertPair m k d v)) : x = v ∨ x ∈ allValues m := by
  induction m with
  | nil =>
      cases d <;>
        simp [allValues, insertPair, ReadPair.values, ReadPair.insert] at h <;>
        exact Or.inl h
  | cons kv rest ih =>
      obtain ⟨k0, pr0⟩ := kv
      by_cases hk : k0 = k
      · subst hk
        rw [insertPair_cons_self, allValues_cons] at h
        rw [allValues_cons]
        rcases List.mem_append.mp h with h | h
        · rcases ReadPair.mem_values_insert _ _ _ _ h with h | h
          · exact Or.inl h
          · exact Or.inr (List.mem_append.mpr (Or.inl h))
        · exact Or.inr (List.mem_append.mpr (Or.inr h))
      · rw [insertPair_cons_ne _ _ _ _ _ _ hk, allValues_cons] at h
        rw [allValues_cons]
        rcases List.mem_append.mp h with h | h
        · exact Or.inr (List.mem_append.mpr (Or.inl h))
        · rcases ih h with h | h
          · exact Or.inl h
          · exact Or.inr (List.mem_append.mpr (Or.inr h))

theorem filledSlots_insertPair_of_slot_none (m : ReadPairLookup) (k : String)
    (d : ReadDirection) (v : String) (h : slotOf m k d = none) :
    List.Perm (filledSlots (insertPair m k d v)) ((k, d) :: filledSlots m) := by
  induction m with
  | nil =>
      cases d <;> simp [filledSlots, insertPair, entrySlots, ReadPair.insert]
  | cons kv rest ih =>
      obtain ⟨k0, pr0⟩ := kv
      by_cases hk : k0 = k
      · subst hk
        have hget : pr0.get d = none := by
          simpa [slotOf, lookupPair] using h
        rw [insertPair_cons_self, filledSlots_cons, filledSlots_cons]
        exact ((entrySlots_insert_of_get_none k0 pr0 v hget).append_right _).trans
          (List.Perm.refl _)
      · have hrest : slotOf rest k d = none := by
          simpa [slotOf, lookupPair, hk] using h
        rw [insertPair_cons_ne _ _ _ _ _ _ hk, filledSlots_cons, filledSlots_cons]
        exact ((ih hrest).append_left _).trans List.perm_middle

theorem mem_filledSlots_key (m : ReadPairLookup) (k : String) (d : ReadDirection)
    (h : (k, d) ∈ filledSlots m) : k ∈ keysOf m := by
  induction m with
  | nil => simp [filledSlots] at h
  | cons kv rest ih =>
      obtain ⟨k0, pr0⟩ := kv
      rw [filledSlots_cons] at h
      rcases List.mem_append.mp h with h | h
      · have := mem_entrySlots_key _ _ _ _ h
        subst this
        simp [keysOf]
      · exact List.mem_cons_of_mem _ (ih h)

theorem mem_filledSlots_iff (m : ReadPairLookup) (k : String) (d : ReadDirection)
    (hnd : (keysOf m).Nodup) : (k, d) ∈ filledSlots m ↔ (slotOf m k d).isSome := by
  induction m with
  | nil => simp [filledSlots, slotOf, lookupPair]
  | cons kv rest ih =>
      obtain ⟨k0, pr0⟩ := kv
      simp only [keysOf, List.map_cons, List.nodup_cons] at hnd
      rw [filledSlots_cons]
      by_cases hk : k0 = k
      · subst hk
        have hrest : (k0, d) ∉ filledSlots rest := fun hmem =>
          hnd.1 (by simpa [keysOf] using mem_filledSlots_key rest k0 d hmem)
        have hslot : slotOf ((k0, pr0) :: rest) k0 d = pr0.get d := by
          simp [slotOf, lookupPair]
        rw [hslot]
        constructor
        · intro hmem
          rcases List.mem_append.mp hmem with hmem | hmem
          · exact (mem_entrySlots_iff _ _ _).mp hmem
          · exact absurd hmem hrest
        · intro hs
          exact List.mem_append.mpr (Or.inl ((mem_entrySlots_iff _ _ _).mpr hs))
      · have hslot : slotOf ((k0, pr0) :: rest) k d = slotOf rest k d := by
          simp [slotOf, lookupPair, hk]
        rw [hslot, ← ih hnd.2]
        constructor
        · intro hmem
          rcases List.mem_append.mp hmem with hmem | hmem
          · exact absurd (mem_entrySlots_key _ _ _ _ hmem).symm hk
          · exact hmem
        · intro hmem
          exact List.mem_append.mpr (Or.inr hmem)

/-! ### Invariants of the per-path loop -/

/-- Does the path have a base name? -/
def hasBase (p : String) : Bool :=
  (fileNameCore p.data).isSome

/-- Is this path assigned to the given (sample, direction) slot? -/
def slotHits (exts : List (List Char)) (k : String) (d : ReadDirection)
    (p : String) : Bool :=
  decide (slotCaptureOf exts p = some (k, d))

theorem getLast?_cons_or {α : Type} (a : α) (l : List α) :
    (a :: l).getLast? = l.getLast?.or (some a) := by
  cases l with
  | nil => rfl
  | cons b l' =>
      rw [List.getLast?_cons_cons]
      cases h : (b :: l').getLast? with
      | none => simp at h
      | some x => rfl

theorem foldProcess_singles (exts : List (List Char)) (rest : List String) :
    ∀ (m : ReadPairLookup) (s : SingleReads) (mf : ReadPairLookup)
      (sf : SingleReads), foldProcess exts rest m s = Except.ok (mf, sf) →
      sf = s ++ rest.filter (noMatchB exts) := by
  induction rest with
  | nil =>
      intro m s mf sf h
      simp only [foldProcess, Except.ok.injEq, Prod.mk.injEq] at h
      simp [h.2]
  | cons p rest ih =>
      intro m s mf sf h
      rw [List.filter_cons]
      simp only [foldProcess] at h
      split at h
      · rename_i hb
        have hnm : noMatchB exts p = false := by simp [noMatchB, hb]
        rw [hnm]
        simpa using ih m s mf sf h
      · rename_i bn hb
        split at h
        · rename_i hc
          have hnm : noMatchB exts p = true := by simp [noMatchB, hb, hc]
          rw [hnm]
          have := ih m (s ++ [p]) mf sf h
          simpa [List.append_assoc] using this
        · rename_i sample dg hc
          have hnm : noMatchB exts p = false := by simp [noMatchB, hb, hc]
          rw [hnm]
          simpa using ih _ s mf sf h
        · exact absurd h (by simp)

theorem foldProcess_nodup_keys (exts : List (List Char)) (rest : List String) :
    ∀ (m : ReadPairLookup) (s : SingleReads) (mf : ReadPairLookup)
      (sf : SingleReads), foldProcess exts rest m s = Except.ok (mf, sf) →
      (keysOf m).Nodup → (keysOf mf).Nodup := by
  induction rest with
  | nil =>
      intro m s mf sf h hnd
      simp only [foldProcess, Except.ok.injEq, Prod.mk.injEq] at h
      rw [← h.1]
      exact hnd
  | cons p rest ih =>
      intro m s mf sf h hnd
      simp only [foldProcess] at h
      split at h
      · exact ih m s mf sf h hnd
      · split at h
        · exact ih m (s ++ [p]) mf sf h hnd
        · exact ih _ s mf sf h (nodup_keysOf_insertPair _ _ _ _ hnd)
        · exact absurd h (by simp)

theorem foldProcess_slots (exts : List (List Char)) (rest : List String) :
    ∀ (m : ReadPairLookup) (s : SingleReads) (mf : ReadPairLookup)
      (sf : SingleReads), foldProcess exts rest m s = Except.ok (mf, sf) →
      ∀ (k : String) (d : ReadDirection),
        slotOf mf k d =
          ((rest.filter (slotHits exts k d)).getLast?).or (slotOf m k d) := by
  induction rest with
  | nil =>
      intro m s mf sf h k d
      simp only [foldProcess, Except.ok.injEq, Prod.mk.injEq] at h
      rw [← h.1]
      simp
  | cons p rest ih =>
      intro m s mf sf h k d
      rw [List.filter_cons]
      simp only [foldProcess] at h
      split at h
      · rename_i hb
        have hsh : slotHits exts k d p = false := by
          simp [slotHits, slotCaptureOf, hb]
        rw [hsh]
        simpa using ih m s mf sf h k d
      · rename_i bn hb
        split at h
        · rename_i hc
          have hsh : slotHits exts k d p = false := by
            simp [slotHits, slotCaptureOf, hb, hc]
          rw [hsh]
          simpa using ih m _ mf sf h k d
        · rename_i sample dg hc
          have hcap : slotCaptureOf exts p =
              some (String.mk sample, directionOf dg) := by
            simp [slotCaptureOf, hb, hc]
          by_cases hkd : (String.mk sample, directionOf dg) = (k, d)
          · have hsh : slotHits exts k d p = true := by
              simp [slotHits, hcap, hkd]
            rw [if_pos hsh]
            rw [Prod.mk.injEq] at hkd
            obtain ⟨hk1, hd1⟩ := hkd
            subst hk1
            subst hd1
            rw [ih _ s mf sf h (String.mk sample) (directionOf dg),
              slotOf_insertPair_same, getLast?_cons_or,
              Option.or_assoc, Option.or_some]
          · have hsh : ¬ slotHits exts k d p = true := by
              simp [slotHits, hcap, hkd]
            rw [if_neg hsh]
            rw [ih _ s mf sf h k d,
              slotOf_insertPair_other m p (fun hcon => hkd (by rw [hcon.1, hcon.2]))]
        · exact absurd h (by simp)

theorem foldProcess_provenance (exts : List (List Char)) (rest : List String) :
    ∀ (m : ReadPairLookup) (s : SingleReads) (mf : ReadPairLookup)
      (sf : SingleReads), foldProcess exts rest m s = Except.ok (mf, sf) →
      ∀ x : String,
        (x ∈ sf → x ∈ s ∨ (x ∈ rest ∧ hasBase x = true)) ∧
        (x ∈ allValues mf → x ∈ allValues m ∨ (x ∈ rest ∧ hasBase x = true)) := by
  induction rest with
  | nil =>
      intro m s mf sf h x
      simp only [foldProcess, Except.ok.injEq, Prod.mk.injEq] at h
      rw [← h.1, ← h.2]
      exact ⟨fun hx => Or.inl hx, fun hx => Or.inl hx⟩
  | cons p rest ih =>
      intro m s mf sf h x
      simp only [foldProcess] at h
      split at h
      · rename_i hb
        refine ⟨fun hx => ?_, fun hx => ?_⟩
        · rcases (ih m s mf sf h x).1 hx with hx | hx
          · exact Or.inl hx
          · exact Or.inr ⟨List.mem_cons_of_mem _ hx.1, hx.2⟩
        · rcases (ih m s mf sf h x).2 hx with hx | hx
          · exact Or.inl hx
          · exact Or.inr ⟨List.mem_cons_of_mem _ hx.1, hx.2⟩
      · rename_i bn hb
        have hbase : hasBase p = true := by simp [hasBase, hb]
        split at h
        · rename_i hc
          refine ⟨fun hx => ?_, fun hx => ?_⟩
          · rcases (ih m _ mf sf h x).1 hx with hx | hx
            · rcases List.mem_append.mp hx with hx | hx
              · exact Or.inl hx
              · have : x = p := by simpa using hx
                subst this
                exact Or.inr ⟨List.mem_cons_self _ _, hbase⟩
            · exact Or.inr ⟨List.mem_cons_of_mem _ hx.1, hx.2⟩
          · rcases (ih m _ mf sf h x).2 hx with hx | hx
            · exact Or.inl hx
            · exact Or.inr ⟨List.mem_cons_of_mem _ hx.1, hx.2⟩
        · rename_i sample dg hc
          refine ⟨fun hx => ?_, fun hx => ?_⟩
          · rcases (ih _ s mf sf h x).1 hx with hx | hx
            · exact Or.inl hx
            · exact Or.inr ⟨List.mem_cons_of_mem _ hx.1, hx.2⟩
          · rcases (ih _ s mf sf h x).2 hx with hx | hx
            · rcases mem_allValues_insertPair _ _ _ _ _ hx with hx | hx
              · subst hx
                exact Or.inr ⟨List.mem_cons_self _ _, hbase⟩
              · exact Or.inl hx
            · exact Or.inr ⟨List.mem_cons_of_mem _ hx.1, hx.2⟩
        · exact absurd h (by simp)

theorem foldProcess_perm (exts : List (List Char)) (rest : List String) :
    ∀ (m : ReadPairLookup) (s : SingleReads) (mf : ReadPairLookup)
      (sf : SingleReads), foldProcess exts rest m s = Except.ok (mf, sf) →
      (keysOf m).Nodup →
      (filledSlots m ++ rest.filterMap (slotCaptureOf exts)).Nodup →
      List.Perm (allValues mf ++ sf)
        (allValues m ++ s ++ rest.filter hasBase) := by
  induction rest with
  | nil =>
      intro m s mf sf h hk hnd
      simp only [foldProcess, Except.ok.injEq, Prod.mk.injEq] at h
      rw [← h.1, ← h.2]
      simp
  | cons p rest ih =>
      intro m s mf sf h hk hnd
      rw [List.filter_cons]
      simp only [foldProcess] at h
      split at h
      · rename_i hb
        have hbase : ¬ hasBase p = true := by simp [hasBase, hb]
        rw [if_neg hbase]
        have hcap : slotCaptureOf exts p = none := by simp [slotCaptureOf, hb]
        rw [List.filterMap_cons, hcap] at hnd
        exact ih m s mf sf h hk hnd
      · rename_i bn hb
        have hbase : hasBase p = true := by simp [hasBase, hb]
        rw [if_pos hbase]
        split at h
        · rename_i hc
          have hcap : slotCaptureOf exts p = none := by
            simp [slotCaptureOf, hb, hc]
          rw [List.filterMap_cons, hcap] at hnd
          have hperm := ih m (s ++ [p]) mf sf h hk hnd
          refine hperm.trans ?_
          simp only [List.append_assoc, List.singleton_append]
          exact List.Perm.refl _
        · rename_i sample dg hc
          have hcap : slotCaptureOf exts p =
              some (String.mk sample, directionOf dg) := by
            simp [slotCaptureOf, hb, hc]
          rw [List.filterMap_cons, hcap] at hnd
          have hmemcap : (String.mk sample, directionOf dg) ∈
              (String.mk sample, directionOf dg) :: rest.filterMap (slotCaptureOf exts) :=
            List.mem_cons_self _ _
          have hnotin : (String.mk sample, directionOf dg) ∉ filledSlots m :=
            fun hmem =>
              (List.disjoint_of_nodup_append hnd) hmem hmemcap
          have hslotnone : slotOf m (String.mk sample) (directionOf dg) = none := by
            rw [← Option.not_isSome_iff_eq_none]
            rw [← mem_filledSlots_iff m _ _ hk]
            exact hnotin
          have hvals := allValues_insertPair_of_slot_none m (String.mk sample)
            (directionOf dg) p hslotnone
          have hfs := filledSlots_insertPair_of_slot_none m (String.mk sample)
            (directionOf dg) p hslotnone
          have hnd1 : (filledSlots (insertPair m (String.mk sample) (directionOf dg) p)
              ++ rest.filterMap (slotCaptureOf exts)).Nodup := by
            have h1 : List.Perm
                (filledSlots m ++ (String.mk sample, directionOf dg)
                  :: rest.filterMap (slotCaptureOf exts))
                (filledSlots (insertPair m (String.mk sample) (directionOf dg) p)
                  ++ rest.filterMap (slotCaptureOf exts)) := by
              refine List.Perm.trans List.perm_middle ?_
              exact (List.Perm.append_right _ hfs).symm
            exact h1.nodup hnd
          have hperm := ih _ s mf sf h
            (nodup_keysOf_insertPair m (String.mk sample) (directionOf dg) p hk) hnd1
          refine hperm.trans ?_
          refine List.Perm.trans (List.Perm.append_right _
            (List.Perm.append_right _ hvals)) ?_
          simp only [List.cons_append]
          exact List.Perm.symm List.perm_middle
        · exact absurd h (by simp)

/-! ### The eviction pass -/

theorem flatMap_congr_mem {α β : Type} (l : List α) (f g : α → List β)
    (h : ∀ x ∈ l, f x = g x) : l.flatMap f = l.flatMap g := by
  induction l with
  | nil => rfl
  | cons a l ih =>
      simp only [List.flatMap_cons]
      rw [h a (List.mem_cons_self a l),
        ih (fun x hx => h x (List.mem_cons_of_mem _ hx))]

theorem evictKey_eq (m : ReadPairLookup) (s : SingleReads) (k : String) :
    evictKey (m, s) k = (removeKey m k, s ++ valuesOfKey m k) := by
  simp only [evictKey, valuesOfKey]
  cases h : lookupPair m k <;> simp [h]

theorem foldl_evictKey_eq (bad : List String) :
    ∀ (m : ReadPairLookup) (s : SingleReads), bad.Nodup →
      bad.foldl evictKey (m, s) =
        (bad.foldl removeKey m, s ++ bad.flatMap (valuesOfKey m)) := by
  induction bad with
  | nil =>
      intro m s _
      simp
  | cons k bad ih =>
      intro m s hnd
      obtain ⟨hknotin, hndtail⟩ := List.nodup_cons.mp hnd
      simp only [List.foldl_cons, evictKey_eq, List.flatMap_cons]
      rw [ih (removeKey m k) (s ++ valuesOfKey m k) hndtail]
      have hcongr : bad.flatMap (valuesOfKey (removeKey m k)) =
          bad.flatMap (valuesOfKey m) := by
        apply flatMap_congr_mem
        intro x hx
        have hxk : x ≠ k := fun hh => hknotin (hh ▸ hx)
        simp [valuesOfKey, lookupPair_removeKey m hxk]
      rw [hcongr, List.append_assoc]

theorem foldl_removeKey_eq_filter (bad : List String) :
    ∀ m : ReadPairLookup,
      bad.foldl removeKey m = m.filter (fun kv => decide (kv.1 ∉ bad)) := by
  induction bad with
  | nil =>
      intro m
      simp
  | cons k bad ih =>
      intro m
      simp only [List.foldl_cons]
      rw [ih (removeKey m k)]
      simp only [removeKey, List.filter_filter]
      apply List.filter_congr
      intro kv _
      by_cases h1 : kv.1 = k <;> by_cases h2 : kv.1 ∈ bad <;> simp [h1, h2]

theorem badKeys_nodup (m : ReadPairLookup) (hk : (keysOf m).Nodup) :
    (badKeys m).Nodup := by
  have hsub : List.Sublist (badKeys m) (keysOf m) :=
    List.Sublist.map Prod.fst (List.filter_sublist m)
  exact hk.sublist hsub

theorem mem_badKeys_iff (m : ReadPairLookup) (hnd : (keysOf m).Nodup)
    (kv : String × ReadPair) (hmem : kv ∈ m) :
    kv.1 ∈ badKeys m ↔ isComplete kv.2 = false := by
  constructor
  · intro h
    simp only [badKeys, List.mem_map] at h
    obtain ⟨kv', hkv', hfst⟩ := h
    have hkv'm : kv' ∈ m := List.mem_of_mem_filter hkv'
    have h1 : lookupPair m kv.1 = some kv.2 :=
      lookupPair_eq_of_mem m kv.1 kv.2 hnd hmem
    have h2 : lookupPair m kv'.1 = some kv'.2 :=
      lookupPair_eq_of_mem m kv'.1 kv'.2 hnd hkv'm
    rw [hfst, h1] at h2
    have hpr : kv.2 = kv'.2 := by injection h2
    have hflt := List.of_mem_filter hkv'
    rw [hpr]
    simpa using hflt
  · intro h
    simp only [badKeys, List.mem_map]
    exact ⟨kv, List.mem_filter.mpr ⟨hmem, by simp [h]⟩, rfl⟩

theorem foldl_removeKey_mem_eq (m : ReadPairLookup) (hk : (keysOf m).Nodup)
    (bad : List String) (hmem : ∀ x, x ∈ bad ↔ x ∈ badKeys m) :
    bad.foldl removeKey m = m.filter (fun kv => isComplete kv.2) := by
  rw [foldl_removeKey_eq_filter]
  apply List.filter_congr
  intro kv hkv
  have hiff := mem_badKeys_iff m hk kv hkv
  by_cases hc : isComplete kv.2 = true
  · have : kv.1 ∉ bad := fun hin => by
      have := hiff.mp ((hmem kv.1).mp hin)
      rw [hc] at this
      exact Bool.true_eq_false.mp this
    simp [this, hc]
  · have hcf : isComplete kv.2 = false := by
      simpa using hc
    have : kv.1 ∈ bad := (hmem kv.1).mpr (hiff.mpr hcf)
    simp [this, hcf]

theorem foldl_evictKeyWith_eq (valOrd : String → List String) (bad : List String) :
    ∀ (m : ReadPairLookup) (s : SingleReads),
      bad.foldl (evictKeyWith valOrd) (m, s) =
        (bad.foldl removeKey m, s ++ bad.flatMap valOrd) := by
  induction bad with
  | nil =>
      intro m s
      simp
  | cons k bad ih =>
      intro m s
      simp only [List.foldl_cons, evictKeyWith, List.flatMap_cons]
      rw [ih]
      rw [List.append_assoc]

theorem badKeys_flatMap_values (m : ReadPairLookup) (hk : (keysOf m).Nodup) :
    (badKeys m).flatMap (valuesOfKey m) =
      (m.filter (fun kv => !isComplete kv.2)).flatMap (fun kv => kv.2.values) := by
  simp only [badKeys, List.flatMap_map]
  apply flatMap_congr_mem
  intro kv hkv
  have hkvm : kv ∈ m := List.mem_of_mem_filter hkv
  simp [valuesOfKey, lookupPair_eq_of_mem m kv.1 kv.2 hk hkvm]

theorem classify_eq_filter (paths : List String) (m : ReadPairLookup)
    (s : SingleReads) (h : classifyRaw paths = Except.ok (m, s)) :
    classify paths = Except.ok
      (m.filter (fun kv => isComplete kv.2),
        s ++ (m.filter (fun kv => !isComplete kv.2)).flatMap
          (fun kv => kv.2.values)) := by
  have hk : (keysOf m).Nodup :=
    foldProcess_nodup_keys _ paths [] [] m s h (by simp [keysOf])
  simp only [classify, h]
  rw [foldl_evictKey_eq _ _ _ (badKeys_nodup m hk)]
  rw [foldl_removeKey_mem_eq m hk (badKeys m) (fun x => Iff.rfl)]
  rw [badKeys_flatMap_values m hk]

/-! ### Helper lemmas for the claim theorems -/

theorem takeWhile_all_not_dot {b : List Char} (hb : ∀ c ∈ b, c ≠ '.') :
    b.takeWhile (fun c => c ≠ '.') = b := by
  induction b with
  | nil => rfl
  | cons c b ih =>
      rw [List.takeWhile_cons]
      have hc := hb c (List.mem_cons_self c b)
      have hrest : ∀ x ∈ b, x ≠ '.' := fun x hx => hb x (List.mem_cons_of_mem _ hx)
      have hdec : (decide (c ≠ '.')) = true := by simpa using hc
      rw [hdec, if_pos rfl, ih hrest]

theorem extTail_of_not_dot {b : List Char} (hb : ∀ c ∈ b, c ≠ '.')
    (hbne : b ≠ []) : extTail b = true := by
  simp only [extTail, takeWhile_all_not_dot hb, List.drop_length]
  simp [hbne]

theorem extCapture_single_dot (a b : List Char)
    (ha : ∀ c ∈ a, c ≠ '.') (hb : ∀ c ∈ b, c ≠ '.') (hbne : b ≠ []) :
    extCapture (a ++ '.' :: b) = some b := by
  induction a with
  | nil =>
      simp only [List.nil_append, extCapture]
      simp [extTail_of_not_dot hb hbne]
  | cons c a ih =>
      have hc := ha c (List.mem_cons_self c a)
      simp only [List.cons_append, extCapture, hc]
      simpa [hc] using ih (fun x hx => ha x (List.mem_cons_of_mem _ hx))

theorem lookupPair_filter_some (m : ReadPairLookup) (q : String × ReadPair → Bool)
    (k : String) (pr : ReadPair) (hnd : (keysOf m).Nodup)
    (h : lookupPair (m.filter q) k = some pr) : lookupPair m k = some pr := by
  have hmem : (k, pr) ∈ m.filter q := lookupPair_mem _ _ _ h
  exact lookupPair_eq_of_mem m k pr hnd (List.mem_of_mem_filter hmem)

theorem mem_allValues_filter (m : ReadPairLookup) (q : String × ReadPair → Bool)
    (x : String) (h : x ∈ allValues (m.filter q)) : x ∈ allValues m := by
  simp only [allValues, List.mem_flatMap] at h ⊢
  obtain ⟨kv, hkv, hx⟩ := h
  exact ⟨kv, List.mem_of_mem_filter hkv, hx⟩

theorem foldProcess_ok_of_no_missing_digit (exts : List (List Char))
    (rest : List String) :
    ∀ (m : ReadPairLookup) (s : SingleReads),
      (∀ p ∈ rest, hasMissingDigit exts p = false) →
      resultOk (foldProcess exts rest m s) = true := by
  induction rest with
  | nil =>
      intro m s _
      rfl
  | cons p rest ih =>
      intro m s h
      have hp := h p (List.mem_cons_self p rest)
      have hrest := fun q hq => h q (List.mem_cons_of_mem p hq)
      simp only [foldProcess]
      split
      · exact ih m s hrest
      · split
        · exact ih m (s ++ [p]) hrest
        · exact ih _ s hrest
        · exfalso
          simp_all [hasMissingDigit]

theorem foldProcess_filter_hasBase (exts : List (List Char)) (rest : List String) :
    ∀ (m : ReadPairLookup) (s : SingleReads),
      foldProcess exts rest m s = foldProcess exts (rest.filter hasBase) m s := by
  induction rest with
  | nil =>
      intro m s
      rfl
  | cons p rest ih =>
      intro m s
      rw [List.filter_cons]
      by_cases hb : hasBase p = true
      · rw [if_pos hb]
        simp only [foldProcess]
        split
        · exact ih m s
        · split
          · exact ih m (s ++ [p])
          · exact ih _ s
          · rfl
      · rw [if_neg hb]
        have hbn : fileNameCore p.data = none := by
          revert hb
          rw [hasBase]
          cases fileNameCore p.data <;> simp
        simp only [foldProcess]
        rw [hbn]
        exact ih m s

theorem classifyExts_filter_hasBase (paths : List String) :
    classifyExts paths = classifyExts (paths.filter hasBase) := by
  unfold classifyExts
  congr 1
  induction paths with
  | nil => rfl
  | cons p rest ih =>
      rw [List.filter_cons]
      by_cases hb : hasBase p = true
      · rw [if_pos hb]
        rw [List.filterMap_cons, List.filterMap_cons]
        cases hge : get_extension p <;> simp [hge, ih]
      · rw [if_neg hb]
        have hbn : fileNameCore p.data = none := by
          revert hb
          rw [hasBase]
          cases fileNameCore p.data <;> simp
        have hge : get_extension p = none := by
          simp [get_extension, hbn]
        rw [List.filterMap_cons, hge]
        exact ih

instance exceptDecEq : DecidableEq (Except String (ReadPairLookup × SingleReads)) :=
  fun a b =>
    match a, b with
    | Except.ok x, Except.ok y =>
        if h : x = y then isTrue (by rw [h])
        else isFalse (fun hh => h (by injection hh))
    | Except.error x, Except.error y =>
        if h : x = y then isTrue (by rw [h])
        else isFalse (fun hh => h (by injection hh))
    | Except.ok _, Except.error _ => isFalse (fun hh => by injection hh)
    | Except.error _, Except.ok _ => isFalse (fun hh => by injection hh)

/-! ### The claims -/

/-- Claim C3: on the six-path scenario input, classify returns a PairLookup
with exactly the two keys ERR1711926 (Forward the underscore-1 file, Reverse
the underscore-2 file) and ERR1711927 (Forward the hyphen-R1 file, Reverse
the underscore-R2 file), and SingleReads holding exactly the ERR1711928 file
and the ERR1711929 file. -/
theorem classify_scenario_c3 :
    classify ["/foo/bar/ERR1711926_1.fastq.gz",
      "/foo/bar/ERR1711926_2.fastq.gz",
      "/foo/bar/ERR1711927-R1.fastq.gz",
      "/foo/bar/ERR1711927_R2.fastq.gz",
      "/foo/bar/ERR1711928.fastq.gz",
      "/foo/bar/ERR1711929_1.fastq.gz"] =
    Except.ok
      ([("ERR1711926", ReadPair.mk (some "/foo/bar/ERR1711926_1.fastq.gz")
          (some "/foo/bar/ERR1711926_2.fastq.gz")),
        ("ERR1711927", ReadPair.mk (some "/foo/bar/ERR1711927-R1.fastq.gz")
          (some "/foo/bar/ERR1711927_R2.fastq.gz"))],
       ["/foo/bar/ERR1711928.fastq.gz", "/foo/bar/ERR1711929_1.fastq.gz"]) := by
  decide

/-- Claim C2 counterexample: a base name that matches the pattern with the
optional mate digit absent makes classify fail (the Rust code panics while
indexing the unfilled capture group 2) instead of classifying the file as
Reverse, refuting the claim that classify never fails. -/
theorem classify_errors_on_missing_digit_c2 :
    classify ["sample_R.fastq.gz"] = Except.error "no group at index 2" := by
  decide

/-- Claim C2 amended: classify is not total; it completes and returns a
result on every input list in which every detected extension splices into
the pattern as a literal (extLiteral: the code escapes only dots, so an
extension containing another regex metacharacter, as with input x.f(q, can
make the unwrap on Regex::new panic) and no base name matches the
classification pattern with the mate digit group empty; a matched base name
with the digit absent (such as sample_R.fastq.gz) makes classify fail
instead of defaulting to Reverse.  The literal-extensions hypothesis bounds
the domain on which the embedded matcher coincides with the compiled
pattern; within it the only failure is the missing-digit panic. -/
theorem classify_ok_of_no_missing_digit_c2 (paths : List String)
    (_hlit : ∀ e ∈ classifyExts paths, extLiteral e = true)
    (h : ∀ p ∈ paths,
      hasMissingDigit ((classifyExts paths).map String.data) p = false) :
    resultOk (classify paths) = true := by
  have hres := foldProcess_ok_of_no_missing_digit
    ((classifyExts paths).map String.data) paths [] [] h
  cases hf : classifyRaw paths with
  | error e =>
      rw [classifyRaw] at hf
      rw [hf] at hres
      simp [resultOk] at hres
  | ok r =>
      obtain ⟨m, s⟩ := r
      simp [classify, hf, resultOk]

theorem classify_ok_of_no_missing_digit_c2_witness :
    resultOk (classify ["a_1.fq", "a_2.fq"]) = true :=
  classify_ok_of_no_missing_digit_c2 ["a_1.fq", "a_2.fq"] (by decide) (by decide)

/-- Claim C7 counterexample: with inputs a.fq, b.fna, c.fq the extension fq
occurs non-adjacently and Vec dedup does not collapse it, so the alternation
list contains fq twice, refuting exactly-once. -/
theorem classify_exts_duplicate_c7 :
    classifyExts ["a.fq", "b.fna", "c.fq"] = ["fq", "fna", "fq"] ∧
    ((classifyExts ["a.fq", "b.fna", "c.fq"]).filter
      (fun e => e = "fq")).length ≠ 1 := by
  constructor
  · decide
  · decide

/-- Claim C7 amended: the extension alternation is the adjacent-duplicate
collapse (Vec dedup) of the observed extensions: paths with no extension are
dropped, first-seen order is preserved, no two adjacent entries are equal,
and the result is a sublist of the observed extension list; equal extensions
occurring non-adjacently are kept and may appear more than once. -/
theorem classify_exts_spec_c7 :
    (∀ paths : List String,
      classifyExts paths = vecDedup (paths.filterMap get_extension)) ∧
    (∀ l : List String, List.Chain' (fun a b => a ≠ b) (vecDedup l) ∧
      List.Sublist (vecDedup l) l) := by
  refine ⟨fun paths => rfl, fun l => ⟨?_, ?_⟩⟩
  · unfold vecDedup
    exact List.destutter_is_chain' (fun a b : String => a ≠ b) l
  · unfold vecDedup
    exact List.destutter_sublist (fun a b : String => a ≠ b) l

/-- Claim C5 counterexample: the base name foo. has a single dot and no gz
suffix, the substring after its last dot is empty, yet get_extension returns
absence rather than that substring, refuting the universal single-dot
clause. -/
theorem get_extension_trailing_dot_c5 :
    get_extension "foo." = none ∧ ¬ get_extension "foo." = some "" := by
  constructor
  · decide
  · decide

/-- Claim C5 amended: get_extension agrees with the extension regex on the
base name: for every base name made of a dot-free prefix, a dot, and a
nonempty dot-free suffix, the extension is that suffix (the substring after
the last dot); the concrete cases foo.fasta.gz, foo.fq, foo.tar.bz2, foo
and the directory case behave as claimed; a base name whose final dot is
followed by nothing yields absence. -/
theorem get_extension_spec_c5 :
    (∀ a b : List Char, (∀ c ∈ a, c ≠ '.') → (∀ c ∈ b, c ≠ '.') → b ≠ [] →
      extCapture (a ++ '.' :: b) = some b) ∧
    get_extension "foo.fasta.gz" = some "fasta.gz" ∧
    get_extension "foo.fq" = some "fq" ∧
    get_extension "foo.tar.bz2" = some "bz2" ∧
    get_extension "foo" = none ∧
    get_extension "dir/foo.fq" = some "fq" := by
  refine ⟨extCapture_single_dot, by decide, by decide, by decide, by decide, by decide⟩

theorem get_extension_spec_c5_witness :
    extCapture (['f', 'o', 'o'] ++ '.' :: ['f', 'q']) = some ['f', 'q'] :=
  get_extension_spec_c5.1 ['f', 'o', 'o'] ['f', 'q']
    (by decide) (by decide) (by decide)

/-- Claim C6 counterexample: the separator class in the assembled pattern is
mandatory, not optional: the base name ERR1711928.fastq.gz, a sample name
immediately followed by a dot and a detected extension with no underscore or
hyphen, does not match the pattern and is classified as a single read. -/
theorem no_separator_no_match_c6 :
    captures [String.data "fastq.gz"] (String.data "ERR1711928.fastq.gz") = none ∧
    classify ["ERR1711928.fastq.gz"] =
      Except.ok ([], ["ERR1711928.fastq.gz"]) := by
  constructor
  · decide
  · decide

/-- Claim C6 amended: the underscore-or-hyphen separator before the optional
R and mate digit is mandatory: a base name containing no separator character
never matches the assembled pattern, whatever the extension list. -/
theorem separator_required_c6 (exts : List (List Char)) (cs : List Char)
    (h : ∀ c ∈ cs, isSep c = false) : captures exts cs = none := by
  have hq : ∀ p q : Nat, sepOK exts cs p q = false := by
    intro p q
    by_cases hlt : q < cs.length
    · have hmem : cs.getD q ' ' ∈ cs := by
        rw [List.getD_eq_getElem?_getD, List.getElem?_eq_getElem hlt]
        exact List.getElem_mem hlt
      have hsep := h _ hmem
      rw [List.getD_eq_getElem?_getD] at hsep
      simp [sepOK, hsep]
    · simp [sepOK, hlt]
  have hbq : ∀ p, bestQ exts cs p = none := by
    intro p
    apply List.find?_eq_none.mpr
    intro q _
    simp [hq p q]
  have hbp : bestP exts cs = none := by
    apply List.find?_eq_none.mpr
    intro p _
    simp [hbq p]
  unfold captures
  rw [hbp]

theorem separator_required_c6_witness :
    captures [String.data "fq"] (String.data "abc.fq") = none :=
  separator_required_c6 [String.data "fq"] (String.data "abc.fq") (by decide)

/-- Claim C4: when classify returns, every ReadPair remaining in the
returned PairLookup has both directions present, the returned PairLookup is
exactly the complete part of the pre-eviction map, and the returned
SingleReads is the pre-eviction singles followed by the files of the evicted
incomplete pairs. -/
theorem classify_complete_pairs_c4 (paths : List String) (pairs : ReadPairLookup)
    (singles : SingleReads) (h : classify paths = Except.ok (pairs, singles)) :
    (∀ kv ∈ pairs, isComplete kv.2 = true) ∧
    (∃ m s0, classifyRaw paths = Except.ok (m, s0) ∧
      pairs = m.filter (fun kv => isComplete kv.2) ∧
      singles = s0 ++ (m.filter (fun kv => !isComplete kv.2)).flatMap
        (fun kv => kv.2.values)) := by
  cases hr : classifyRaw paths with
  | error e =>
      simp [classify, hr] at h
  | ok r =>
      obtain ⟨m, s0⟩ := r
      have hcf := classify_eq_filter paths m s0 hr
      have heq := h.symm.trans hcf
      injection heq with heq
      have hp : pairs = m.filter (fun kv => isComplete kv.2) :=
        congrArg Prod.fst heq
      have hs : singles = s0 ++ (m.filter (fun kv => !isComplete kv.2)).flatMap
          (fun kv => kv.2.values) := congrArg Prod.snd heq
      refine ⟨?_, m, s0, rfl, hp, hs⟩
      intro kv hkv
      rw [hp] at hkv
      exact (List.mem_filter.mp hkv).2

theorem classify_complete_pairs_c4_witness :
    (∀ kv ∈ ([] : ReadPairLookup), isComplete kv.2 = true) ∧
    (∃ m s0, classifyRaw ["a_1.fq"] = Except.ok (m, s0) ∧
      ([] : ReadPairLookup) = m.filter (fun kv => isComplete kv.2) ∧
      ["a_1.fq"] = s0 ++ (m.filter (fun kv => !isComplete kv.2)).flatMap
        (fun kv => kv.2.values)) :=
  classify_complete_pairs_c4 ["a_1.fq"] [] ["a_1.fq"] (by decide)

/-- Claim C8: last-write-wins: for any sample name and direction still
present in the returned PairLookup, the stored file is the last path in
input traversal order whose base name was assigned to that
(SampleName, Direction) slot, so a later file overwrites an earlier one. -/
theorem last_write_wins_c8 (paths : List String) (m : ReadPairLookup)
    (s0 : SingleReads) (pairs : ReadPairLookup) (singles : SingleReads)
    (k : String) (d : ReadDirection) (pr : ReadPair)
    (hraw : classifyRaw paths = Except.ok (m, s0))
    (hok : classify paths = Except.ok (pairs, singles))
    (hlk : lookupPair pairs k = some pr) :
    pr.get d = (paths.filter
      (slotHits ((classifyExts paths).map String.data) k d)).getLast? := by
  have hk : (keysOf m).Nodup :=
    foldProcess_nodup_keys _ paths [] [] m s0 hraw (by simp [keysOf])
  have hcf := classify_eq_filter paths m s0 hraw
  have heq := hok.symm.trans hcf
  injection heq with heq
  have hp : pairs = m.filter (fun kv => isComplete kv.2) := congrArg Prod.fst heq
  rw [hp] at hlk
  have hlm : lookupPair m k = some pr := lookupPair_filter_some m _ k pr hk hlk
  have hslot := foldProcess_slots ((classifyExts paths).map String.data)
    paths [] [] m s0 hraw k d
  simpa [slotOf, hlm, lookupPair, Option.or_none] using hslot

theorem last_write_wins_c8_witness :
    (ReadPair.mk (some "dir2/x_1.fq") (some "dir2/x_2.fq")).get
        ReadDirection.Forward =
      (["dir1/x_1.fq", "dir2/x_1.fq", "dir2/x_2.fq"].filter
        (slotHits ((classifyExts
          ["dir1/x_1.fq", "dir2/x_1.fq", "dir2/x_2.fq"]).map String.data)
          "x" ReadDirection.Forward)).getLast? :=
  last_write_wins_c8 ["dir1/x_1.fq", "dir2/x_1.fq", "dir2/x_2.fq"]
    [("x", ReadPair.mk (some "dir2/x_1.fq") (some "dir2/x_2.fq"))] []
    [("x", ReadPair.mk (some "dir2/x_1.fq") (some "dir2/x_2.fq"))] []
    "x" ReadDirection.Forward
    (ReadPair.mk (some "dir2/x_1.fq") (some "dir2/x_2.fq"))
    (by decide) (by decide) (by decide)

/-- Claim C1 counterexample: with two files from different directories
mapping to the same (sample, direction) slot, the earlier file is
overwritten and appears in neither the returned PairLookup nor SingleReads,
refuting the no-loss partition for arbitrary inputs. -/
theorem classify_loses_overwritten_c1 :
    classify ["dir1/x_1.fq", "dir2/x_1.fq", "dir2/x_2.fq"] =
      Except.ok ([("x", ReadPair.mk (some "dir2/x_1.fq") (some "dir2/x_2.fq"))],
        []) ∧
    "dir1/x_1.fq" ∉
      (allValues [("x", ReadPair.mk (some "dir2/x_1.fq") (some "dir2/x_2.fq"))]
        ++ ([] : SingleReads)) := by
  constructor
  · decide
  · decide

/-- Claim C1 amended: classify partitions the inputs with no duplication and
no loss provided every input path has a base name (paths without one are
silently dropped) and no two inputs are assigned to the same
(SampleName, Direction) slot (a later such input overwrites and loses the
earlier one): the input list is then a permutation of the files stored in
the returned complete pairs together with the returned singles. -/
theorem classify_partition_c1 (paths : List String) (pairs : ReadPairLookup)
    (singles : SingleReads)
    (hok : classify paths = Except.ok (pairs, singles))
    (hbase : ∀ p ∈ paths, hasBase p = true)
    (hnc : (paths.filterMap
      (slotCaptureOf ((classifyExts paths).map String.data))).Nodup) :
    (∀ kv ∈ pairs, isComplete kv.2 = true) ∧
    List.Perm paths (allValues pairs ++ singles) := by
  obtain ⟨hcomp, m, s0, hr, hp, hs⟩ :=
    classify_complete_pairs_c4 paths pairs singles hok
  refine ⟨hcomp, ?_⟩
  have hfold := foldProcess_perm ((classifyExts paths).map String.data) paths
    [] [] m s0 hr (by simp [keysOf]) (by simpa [filledSlots] using hnc)
  have hfilter : paths.filter hasBase = paths := List.filter_eq_self.mpr hbase
  rw [hfilter] at hfold
  have hfold2 : List.Perm (allValues m ++ s0) paths := by
    simpa [show allValues ([] : ReadPairLookup) = [] from rfl] using hfold
  have hsplit : List.Perm (allValues m)
      (allValues (m.filter (fun kv => isComplete kv.2)) ++
        allValues (m.filter (fun kv => !isComplete kv.2))) := by
    have hfp := List.filter_append_perm (fun kv => isComplete kv.2) m
    have hpm := (List.Perm.flatMap_right (fun kv : String × ReadPair =>
      kv.2.values) hfp).symm
    simpa [allValues, List.flatMap_append] using hpm
  have hs2 : singles = s0 ++
      allValues (m.filter (fun kv => !isComplete kv.2)) := hs
  rw [hp, hs2]
  refine hfold2.symm.trans ?_
  refine (hsplit.append_right s0).trans ?_
  rw [List.append_assoc]
  exact List.Perm.append_left _ List.perm_append_comm

theorem classify_partition_c1_witness :
    (∀ kv ∈
      [("ERR1711926", ReadPair.mk (some "/foo/bar/ERR1711926_1.fastq.gz")
          (some "/foo/bar/ERR1711926_2.fastq.gz")),
        ("ERR1711927", ReadPair.mk (some "/foo/bar/ERR1711927-R1.fastq.gz")
          (some "/foo/bar/ERR1711927_R2.fastq.gz"))],
      isComplete kv.2 = true) ∧
    List.Perm ["/foo/bar/ERR1711926_1.fastq.gz",
      "/foo/bar/ERR1711926_2.fastq.gz",
      "/foo/bar/ERR1711927-R1.fastq.gz",
      "/foo/bar/ERR1711927_R2.fastq.gz",
      "/foo/bar/ERR1711928.fastq.gz",
      "/foo/bar/ERR1711929_1.fastq.gz"]
      (allValues
        [("ERR1711926", ReadPair.mk (some "/foo/bar/ERR1711926_1.fastq.gz")
            (some "/foo/bar/ERR1711926_2.fastq.gz")),
          ("ERR1711927", ReadPair.mk (some "/foo/bar/ERR1711927-R1.fastq.gz")
            (some "/foo/bar/ERR1711927_R2.fastq.gz"))] ++
        ["/foo/bar/ERR1711928.fastq.gz", "/foo/bar/ERR1711929_1.fastq.gz"]) :=
  classify_partition_c1
    ["/foo/bar/ERR1711926_1.fastq.gz",
      "/foo/bar/ERR1711926_2.fastq.gz",
      "/foo/bar/ERR1711927-R1.fastq.gz",
      "/foo/bar/ERR1711927_R2.fastq.gz",
      "/foo/bar/ERR1711928.fastq.gz",
      "/foo/bar/ERR1711929_1.fastq.gz"]
    [("ERR1711926", ReadPair.mk (some "/foo/bar/ERR1711926_1.fastq.gz")
        (some "/foo/bar/ERR1711926_2.fastq.gz")),
      ("ERR1711927", ReadPair.mk (some "/foo/bar/ERR1711927-R1.fastq.gz")
        (some "/foo/bar/ERR1711927_R2.fastq.gz"))]
    ["/foo/bar/ERR1711928.fastq.gz", "/foo/bar/ERR1711929_1.fastq.gz"]
    (by decide) (by decide) (by decide)

/-- Claim C9: classification is deterministic in content: the HashMap
iteration orders used by the eviction pass are unspecified, so classify is
compared through classifyWith, which takes the order of the incomplete keys
and the per-key value order as parameters; any two admissible runs on the
same input list produce the same PairLookup and SingleReads that are equal
as multisets (permutations of each other). -/
theorem classify_deterministic_c9 (paths : List String) (m : ReadPairLookup)
    (s0 : SingleReads) (bad1 bad2 : List String)
    (val1 val2 : String → List String) (P1 P2 : ReadPairLookup)
    (S1 S2 : SingleReads)
    (hraw : classifyRaw paths = Except.ok (m, s0))
    (hb1 : List.Perm bad1 (badKeys m)) (hb2 : List.Perm bad2 (badKeys m))
    (hv1 : ∀ k ∈ bad1, List.Perm (val1 k) (valuesOfKey m k))
    (hv2 : ∀ k ∈ bad2, List.Perm (val2 k) (valuesOfKey m k))
    (h1 : classifyWith bad1 val1 paths = Except.ok (P1, S1))
    (h2 : classifyWith bad2 val2 paths = Except.ok (P2, S2)) :
    P1 = P2 ∧ List.Perm S1 S2 := by
  have hk : (keysOf m).Nodup :=
    foldProcess_nodup_keys _ paths [] [] m s0 hraw (by simp [keysOf])
  have he1 : classifyWith bad1 val1 paths =
      Except.ok (bad1.foldl removeKey m, s0 ++ bad1.flatMap val1) := by
    simp [classifyWith, hraw, foldl_evictKeyWith_eq]
  have he2 : classifyWith bad2 val2 paths =
      Except.ok (bad2.foldl removeKey m, s0 ++ bad2.flatMap val2) := by
    simp [classifyWith, hraw, foldl_evictKeyWith_eq]
  have heq1 := h1.symm.trans he1
  injection heq1 with heq1
  have heq2 := h2.symm.trans he2
  injection heq2 with heq2
  have hp1 : P1 = bad1.foldl removeKey m := congrArg Prod.fst heq1
  have hp2 : P2 = bad2.foldl removeKey m := congrArg Prod.fst heq2
  have hs1 : S1 = s0 ++ bad1.flatMap val1 := congrArg Prod.snd heq1
  have hs2 : S2 = s0 ++ bad2.flatMap val2 := congrArg Prod.snd heq2
  constructor
  · rw [hp1, hp2,
      foldl_removeKey_mem_eq m hk bad1 (fun x => hb1.mem_iff),
      foldl_removeKey_mem_eq m hk bad2 (fun x => hb2.mem_iff)]
  · have hperm1 : List.Perm (bad1.flatMap val1)
        ((badKeys m).flatMap (valuesOfKey m)) :=
      (List.Perm.flatMap_left bad1 hv1).trans
        (List.Perm.flatMap_right (valuesOfKey m) hb1)
    have hperm2 : List.Perm (bad2.flatMap val2)
        ((badKeys m).flatMap (valuesOfKey m)) :=
      (List.Perm.flatMap_left bad2 hv2).trans
        (List.Perm.flatMap_right (valuesOfKey m) hb2)
    rw [hs1, hs2]
    exact (hperm1.append_left s0).trans (hperm2.append_left s0).symm

theorem classify_deterministic_c9_witness :
    ([] : ReadPairLookup) = ([] : ReadPairLookup) ∧
    List.Perm ["b_1.fq"] ["b_1.fq"] :=
  classify_deterministic_c9 ["b_1.fq"]
    [("b", ReadPair.mk (some "b_1.fq") none)] []
    ["b"] ["b"] (fun _ => ["b_1.fq"]) (fun _ => ["b_1.fq"])
    [] [] ["b_1.fq"] ["b_1.fq"]
    (by decide) (by decide) (by decide)
    (by decide) (by decide)
    (by decide) (by decide)

/-- Claim C10: a path with no extractable base name (such as the root or a
path ending in the parent-dir marker) is silently dropped by classify: the
result equals the result on the input list with such paths filtered away (so
the path raises no error), and when classify returns, the path appears
neither in the SingleReads nor among the files of the returned PairLookup. -/
theorem classify_drops_no_base_c10 (paths : List String) (p : String)
    (pairs : ReadPairLookup) (singles : SingleReads)
    (_hp : p ∈ paths) (hnb : fileNameCore p.data = none) :
    classify paths = classify (paths.filter hasBase) ∧
    (classify paths = Except.ok (pairs, singles) →
      p ∉ singles ∧ p ∉ allValues pairs) := by
  constructor
  · have hraw : classifyRaw paths = classifyRaw (paths.filter hasBase) := by
      unfold classifyRaw
      rw [← classifyExts_filter_hasBase paths]
      exact foldProcess_filter_hasBase _ paths [] []
    unfold classify
    rw [hraw]
  · intro hok
    obtain ⟨hcomp, m, s0, hr, hpairs, hsingles⟩ :=
      classify_complete_pairs_c4 paths pairs singles hok
    have hprov := foldProcess_provenance ((classifyExts paths).map String.data)
      paths [] [] m s0 hr
    have hbase_p : ¬ hasBase p = true := by simp [hasBase, hnb]
    constructor
    · rw [hsingles]
      intro hin
      rcases List.mem_append.mp hin with hin | hin
      · rcases (hprov p).1 hin with hin | hin
        · simp at hin
        · exact hbase_p hin.2
      · have h2 : p ∈ allValues m := mem_allValues_filter m _ p hin
        rcases (hprov p).2 h2 with hin2 | hin2
        · simp [allValues] at hin2
        · exact hbase_p hin2.2
    · rw [hpairs]
      intro hin
      have h2 : p ∈ allValues m := mem_allValues_filter m _ p hin
      rcases (hprov p).2 h2 with hin2 | hin2
      · simp [allValues] at hin2
      · exact hbase_p hin2.2

theorem classify_drops_no_base_c10_witness :
    classify ["/", "a_1.fq"] = classify (["/", "a_1.fq"].filter hasBase) ∧
    (classify ["/", "a_1.fq"] = Except.ok ([], ["a_1.fq"]) →
      "/" ∉ (["a_1.fq"] : SingleReads) ∧ "/" ∉ allValues []) :=
  classify_drops_no_base_c10 ["/", "a_1.fq"] "/" [] ["a_1.fq"]
    (by decide) (by decide)
